import Mathlib

/-
Verification development for the Deckard duplicate-image scanner.

Shallow embedding of `src/searcher.rs` (SearcherInner::search, Searcher) and
`src/misc.rs` (Image::load). The filesystem and the image libraries are
modelled as environment functions:
  * `dec : String → DecodeOutcome` gives, per path, the outcome of
    `std::panic::catch_unwind(|| image::open(path))` followed by
    `hasher.hash_image` under the configured algorithm (a pure function of the
    file's bytes, hence of the path for a fixed filesystem).
  * `fs : String → LoadOutcome` gives, per path, the outcome of the
    open/read_to_end steps of `Image::load`.
  * `decodeMem : List Nat → Option (Nat × Nat)` models
    `image::load_from_memory(&buffer).ok().map(|img| (img.width(), img.height()))`.
The concurrent rayon walk of phase 1 is abstracted as a sequential pass over
the walker's entries in an arbitrary order (quantified in theorems that need
it), and the relaxed cancellation flag is abstracted as an oracle
`obs : Nat → Bool` giving the value observed by the k-th cancellation check
(an entry skipped by rayon's short-circuit after cancellation has the same
effect as a worker observing the flag, so both are the oracle answering true).
-/

namespace Deckard

/-- Last path component: the text after the final separator, modelling
`Path::file_name` for ordinary file paths. -/
def lastComponent (path : String) : String :=
  String.mk ((path.data.reverse.takeWhile (fun c => c ≠ '/')).reverse)

/-- Rust `Path::extension`: `none` if the file name has no dot, or begins with
a dot and has no other dot, or is `.`/`..`; otherwise the portion of the file
name after the final dot. Used by the filter in `SearcherInner::search`. -/
def rustExtension (path : String) : Option String :=
  let name := lastComponent path
  if name = "." ∨ name = ".." then none
  else
    match name.toList with
    | [] => none
    | c :: rest =>
      if rest.contains '.' then
        some (String.mk (((c :: rest).reverse.takeWhile (fun ch => ch ≠ '.')).reverse))
      else none

/-- Outcome of `catch_unwind(|| image::open(path))` plus hashing: `panic` for a
decoder panic, `failure e` for `Err(e)`, and `ok h` for a successful decode
whose `hasher.hash_image` value under the configured algorithm is `h`. -/
inductive DecodeOutcome where
  | panic : DecodeOutcome
  | failure : String → DecodeOutcome
  | ok : Nat → DecodeOutcome
deriving DecidableEq, Repr

/-- Outcome of the `File::open` / `read_to_end` steps of `Image::load`. -/
inductive LoadOutcome where
  | openErr : String → LoadOutcome
  | readErr : String → LoadOutcome
  | okBytes : List Nat → LoadOutcome
deriving DecidableEq, Repr

/-- `misc.rs` `Image`: path, byte buffer, byte size, optional dimensions. -/
structure Image where
  path : String
  buffer : List Nat
  file_size : Nat
  dimm : Option (Nat × Nat)
deriving DecidableEq, Repr

/-- `Image::new`: `file_size` is the buffer length. -/
def Image.new (path : String) (buffer : List Nat) (dimm : Option (Nat × Nat)) : Image :=
  { path := path, buffer := buffer, file_size := buffer.length, dimm := dimm }

/-- `Image::load`: open and read the file (either step failing yields
`Err(formatted message)`), then decode the bytes on a best-effort basis for
the dimensions only. -/
def Image.load (decodeMem : List Nat → Option (Nat × Nat)) (fs : String → LoadOutcome)
    (path : String) : Except String Image :=
  match fs path with
  | LoadOutcome.openErr e => Except.error ("Error opening " ++ path ++ ": " ++ e)
  | LoadOutcome.readErr e => Except.error ("Error reading " ++ path ++ ": " ++ e)
  | LoadOutcome.okBytes buffer => Except.ok (Image.new path buffer (decodeMem buffer))

/-- One entry produced by the `WalkDir` iterator: its full path and whether
`entry.file_type().is_dir()` holds. -/
structure FileEntry where
  path : String
  isDir : Bool
deriving DecidableEq, Repr

/-- One item of the walk: either `Err(e)` from the walker or an entry. -/
inductive WalkItem where
  | err : String → WalkItem
  | entry : FileEntry → WalkItem
deriving DecidableEq, Repr

/-- `searcher.rs` `SearchResults`. -/
structure SearchResults where
  duplicates : List (List Image)
  errors : List String
deriving DecidableEq, Repr

/-- `SearchResults::empty()`. -/
def SearchResults.empty : SearchResults := { duplicates := [], errors := [] }

/-- Set-semantics insertion, modelling `DashSet::insert`. -/
def insertSet (x : String) (xs : List String) : List String :=
  if x ∈ xs then xs else xs ++ [x]

/-- The `DashMap<ImageHash, DashSet<PathBuf>>` aggregator, as an association
list with set-valued buckets. -/
abbrev HashToPaths := List (Nat × List String)

/-- `map.entry(hash).or_insert(DashSet::new()).insert(path)`. -/
def mapInsert (h : Nat) (p : String) : HashToPaths → HashToPaths
  | [] => [(h, insertSet p [])]
  | (k, ps) :: rest =>
    if k = h then (k, insertSet p ps) :: rest
    else (k, ps) :: mapInsert h p rest

/-- State accumulated by the phase-1 workers: the aggregator map and the
`DashSet` of error strings. -/
structure Phase1State where
  map : HashToPaths
  errors : List String
deriving DecidableEq, Repr

/-- Body of the phase-1 rayon closure for one walk item (after the
cancellation check): record walk errors, skip directories and files whose
extension is missing or not in the active set, record decode faults, and
insert successful hashes into the aggregator. -/
def processEntry (exts : List String) (dec : String → DecodeOutcome)
    (st : Phase1State) (it : WalkItem) : Phase1State :=
  match it with
  | WalkItem.err e =>
      { st with errors := insertSet ("Error walking directory: " ++ e) st.errors }
  | WalkItem.entry f =>
      if f.isDir then st
      else
        match rustExtension f.path with
        | none => st
        | some s =>
          if exts.contains s then
            match dec f.path with
            | DecodeOutcome.panic =>
                { st with errors := insertSet ("Panic opening image " ++ f.path) st.errors }
            | DecodeOutcome.failure e =>
                { st with errors :=
                    insertSet ("Error opening image " ++ f.path ++ ": " ++ e) st.errors }
            | DecodeOutcome.ok h =>
                { st with map := mapInsert h f.path st.map }
          else st

/-- Phase 1: each walk item is preceded by a cancellation check; a check that
observes `true` makes the worker return `Err(())` without touching the state
(and items never started after rayon short-circuits behave identically). -/
def phase1 (exts : List String) (dec : String → DecodeOutcome) (obs : Nat → Bool) :
    Nat → List WalkItem → Phase1State → Phase1State
  | _, [], st => st
  | k, it :: rest, st =>
      phase1 exts dec obs (k + 1) rest (if obs k then st else processEntry exts dec st it)

/-- State of the inner (per-path) materialization loop. `loads` is ghost
instrumentation recording every path passed to `Image::load`. -/
structure PathLoopState where
  k : Nat
  v : List Image
  errors : List String
  loads : List String
  canceled : Bool
deriving DecidableEq, Repr

/-- One iteration of `for path in dups`: call `Image::load`, push the image or
record the error, then check cancellation. -/
def matPath (decodeMem : List Nat → Option (Nat × Nat)) (fs : String → LoadOutcome)
    (obs : Nat → Bool) (st : PathLoopState) (p : String) : PathLoopState :=
  if st.canceled then st
  else
    let st1 : PathLoopState := { st with loads := st.loads ++ [p] }
    let st2 : PathLoopState :=
      match Image.load decodeMem fs p with
      | Except.ok img => { st1 with v := st1.v ++ [img] }
      | Except.error e => { st1 with errors := insertSet e st1.errors }
    if obs st2.k then { st2 with k := st2.k + 1, canceled := true }
    else { st2 with k := st2.k + 1 }

/-- State of the outer (per-bucket) materialization loop. -/
structure BucketLoopState where
  k : Nat
  duplicates : List (List Image)
  errors : List String
  loads : List String
  canceled : Bool
deriving DecidableEq, Repr

/-- One iteration of `for (_, dups) in map.into_iter()`: check cancellation,
skip buckets of size at most one, otherwise materialize every member and push
the group. -/
def matBucket (decodeMem : List Nat → Option (Nat × Nat)) (fs : String → LoadOutcome)
    (obs : Nat → Bool) (st : BucketLoopState) (bucket : Nat × List String) :
    BucketLoopState :=
  if st.canceled then st
  else if obs st.k then { st with k := st.k + 1, canceled := true }
  else
    let st' : BucketLoopState := { st with k := st.k + 1 }
    if bucket.2.length ≤ 1 then st'
    else
      let inner := bucket.2.foldl (matPath decodeMem fs obs)
        { k := st'.k, v := [], errors := st'.errors, loads := st'.loads, canceled := false }
      if inner.canceled then
        { k := inner.k, duplicates := st'.duplicates, errors := inner.errors,
          loads := inner.loads, canceled := true }
      else
        { k := inner.k, duplicates := st'.duplicates ++ [inner.v], errors := inner.errors,
          loads := inner.loads, canceled := false }

/-- Output of one scan: the `SearchResults` plus the ghost list of paths
passed to `Image::load`. -/
structure SearchOutput where
  results : SearchResults
  loads : List String
deriving DecidableEq, Repr

/-- `SearcherInner::search`: phase 1 over the walk items, then the sequential
materialization pass over the aggregator; any cancellation observed during the
materialization loops returns `SearchResults::empty()` immediately. -/
def searchModel (exts : List String) (dec : String → DecodeOutcome)
    (decodeMem : List Nat → Option (Nat × Nat)) (fs : String → LoadOutcome)
    (obs1 obs2 : Nat → Bool) (items : List WalkItem) : SearchOutput :=
  let st1 := phase1 exts dec obs1 0 items { map := [], errors := [] }
  let st2 := st1.map.foldl (matBucket decodeMem fs obs2)
    { k := 0, duplicates := [], errors := st1.errors, loads := [], canceled := false }
  if st2.canceled then { results := SearchResults.empty, loads := st2.loads }
  else { results := { duplicates := st2.duplicates, errors := st2.errors },
         loads := st2.loads }

/-- The fault message phase 1 records for a decode outcome, if any. -/
def decodeFaultMsg (path : String) : DecodeOutcome → Option String
  | DecodeOutcome.panic => some ("Panic opening image " ++ path)
  | DecodeOutcome.failure e => some ("Error opening image " ++ path ++ ": " ++ e)
  | DecodeOutcome.ok _ => none

/-- Status of the background worker handle. -/
inductive WorkerStatus where
  | running : WorkerStatus
  | finished : WorkerStatus
deriving DecidableEq, Repr

/-- `Searcher`: the cancellation flag and the optional worker handle. -/
structure Searcher where
  cancel : Bool
  thread : Option WorkerStatus
deriving DecidableEq, Repr

/-- `Searcher::new`. -/
def Searcher.new : Searcher := { cancel := false, thread := none }

/-- `Searcher::cancel`: store `true` into the flag. -/
def Searcher.cancelRequest (s : Searcher) : Searcher := { s with cancel := true }

/-- `Searcher::was_canceled`. -/
def Searcher.was_canceled (s : Searcher) : Bool := s.cancel

/-- `Searcher::launch_search`: asserts no worker handle is present, then
resets the cancellation flag to `false` and spawns the worker. The assertion
failure is modelled as `Except.error` with the assertion's message. -/
def Searcher.launch_search (s : Searcher) : Except String Searcher :=
  match s.thread with
  | some _ =>
      Except.error "launch_search() called twice without wait_for_search() between"
  | none => Except.ok { cancel := false, thread := some WorkerStatus.running }

/-- `Searcher::wait_for_search`: takes the handle (panicking if absent, again
modelled as `Except.error`) and joins, returning to the idle state. -/
def Searcher.wait_for_search (s : Searcher) : Except String Searcher :=
  match s.thread with
  | some _ => Except.ok { s with thread := none }
  | none => Except.error "thread missing"

/-- The fixed recognized-extension set `SUPPORTED_EXTS` of `searcher.rs`. -/
def SUPPORTED_EXTS : List String :=
  ["jpg", "jpeg", "avif", "bmp", "dds", "exr", "gif", "hdr", "ico", "png",
   "pnm", "qoi", "tga", "tif", "tiff", "webp"]

/-- Oracle for a scan during which no cancellation check ever observes the
flag set. -/
def noCancel : Nat → Bool := fun _ => false

/-! Derived notions used by the theorems. -/

/-- Lookup of a bucket by hash in the aggregator. -/
def bucket? (m : HashToPaths) (h : Nat) : Option (List String) :=
  match m with
  | [] => none
  | (k, ps) :: rest => if k = h then some ps else bucket? rest h

/-- Membership of a path in the bucket of a given hash. -/
def inBucket (m : HashToPaths) (h : Nat) (p : String) : Prop :=
  ∃ ps, bucket? m h = some ps ∧ p ∈ ps

/-- Effect of one walk item on the phase-1 state, classified. -/
inductive EntryAction where
  | skip : EntryAction
  | fault : String → EntryAction
  | insert : String → Nat → EntryAction
deriving DecidableEq, Repr

/-- The action the phase-1 closure takes on a walk item. -/
def entryAction (exts : List String) (dec : String → DecodeOutcome) :
    WalkItem → EntryAction
  | WalkItem.err e => EntryAction.fault ("Error walking directory: " ++ e)
  | WalkItem.entry f =>
      if f.isDir then EntryAction.skip
      else
        match rustExtension f.path with
        | none => EntryAction.skip
        | some s =>
          if exts.contains s then
            match dec f.path with
            | DecodeOutcome.panic => EntryAction.fault ("Panic opening image " ++ f.path)
            | DecodeOutcome.failure e =>
                EntryAction.fault ("Error opening image " ++ f.path ++ ": " ++ e)
            | DecodeOutcome.ok h => EntryAction.insert f.path h
          else EntryAction.skip

/-- A path that passes the phase-1 filter and hashes to `h`. -/
def AcceptedPath (exts : List String) (dec : String → DecodeOutcome)
    (p : String) (h : Nat) : Prop :=
  (∃ s, rustExtension p = some s ∧ exts.contains s = true) ∧
    dec p = DecodeOutcome.ok h

/-- Well-formedness of the aggregator map: distinct hash keys, duplicate-free
buckets, and every bucket member passed the filter and hashes to the bucket's
key. -/
def MapWF (exts : List String) (dec : String → DecodeOutcome) (m : HashToPaths) : Prop :=
  (m.map Prod.fst).Nodup ∧
    ∀ h ps, (h, ps) ∈ m → ps.Nodup ∧ ∀ p ∈ ps, AcceptedPath exts dec p h

/-- Successful result of `Image::load`, if any. -/
def loadOk (decodeMem : List Nat → Option (Nat × Nat)) (fs : String → LoadOutcome)
    (p : String) : Option Image :=
  (Image.load decodeMem fs p).toOption

/-- The images a fully materialized bucket contributes: the successfully
re-loaded members, in bucket order. -/
def materializeGroup (decodeMem : List Nat → Option (Nat × Nat))
    (fs : String → LoadOutcome) (ps : List String) : List Image :=
  ps.filterMap (loadOk decodeMem fs)

/-- Error messages that the materialization of the given paths adds to an
error set. -/
def insertLoadErrors (decodeMem : List Nat → Option (Nat × Nat))
    (fs : String → LoadOutcome) (ps : List String) (errs : List String) : List String :=
  ps.foldl (fun es p =>
    match Image.load decodeMem fs p with
    | Except.ok _ => es
    | Except.error e => insertSet e es) errs

/-- Whether `Image::load` succeeds on a path. -/
def loadable (decodeMem : List Nat → Option (Nat × Nat)) (fs : String → LoadOutcome)
    (p : String) : Bool :=
  (loadOk decodeMem fs p).isSome

/-- The duplicate groups of a result, each viewed as its set of member paths,
collectively viewed as a set. -/
def pathSets (r : SearchResults) : Finset (Finset String) :=
  (r.duplicates.map (fun g => (g.map Image.path).toFinset)).toFinset

/-! Lemmas about `insertSet`. -/

theorem mem_insertSet {y x : String} {xs : List String} :
    y ∈ insertSet x xs ↔ y = x ∨ y ∈ xs := by
  unfold insertSet
  split
  · next hx => constructor
               · exact fun h => Or.inr h
               · rintro (rfl | h) <;> [exact hx; exact h]
  · simp [or_comm]

theorem insertSet_nodup {x : String} {xs : List String} (h : xs.Nodup) :
    (insertSet x xs).Nodup := by
  unfold insertSet
  split
  · exact h
  · next hx => simpa [List.nodup_append] using ⟨h, fun h' => hx h'⟩

theorem mem_insertSet_self {x : String} {xs : List String} : x ∈ insertSet x xs := by
  rw [mem_insertSet]; exact Or.inl rfl

theorem mem_insertSet_of_mem {y x : String} {xs : List String} (h : y ∈ xs) :
    y ∈ insertSet x xs := by
  rw [mem_insertSet]; exact Or.inr h

/-! Lemmas about `bucket?` and `mapInsert`. -/

theorem bucket?_mapInsert_self (h : Nat) (p : String) (m : HashToPaths) :
    bucket? (mapInsert h p m) h = some (insertSet p ((bucket? m h).getD [])) := by
  induction m with
  | nil => simp [mapInsert, bucket?]
  | cons b rest ih =>
    obtain ⟨k, ps⟩ := b
    by_cases hk : k = h
    · subst hk; simp [mapInsert, bucket?]
    · simp [mapInsert, bucket?, hk, ih]

theorem bucket?_mapInsert_ne {h h' : Nat} (p : String) (m : HashToPaths)
    (hne : h' ≠ h) : bucket? (mapInsert h p m) h' = bucket? m h' := by
  induction m with
  | nil => simp [mapInsert, bucket?, Ne.symm hne]
  | cons b rest ih =>
    obtain ⟨k, ps⟩ := b
    by_cases hk : k = h
    · subst hk
      have : k ≠ h' := fun he => hne he.symm
      simp [mapInsert, bucket?, this]
    · by_cases hk' : k = h'
      · subst hk'; simp [mapInsert, bucket?, hk]
      · simp [mapInsert, bucket?, hk, hk', ih]

theorem inBucket_iff_mem_getD {m : HashToPaths} {h : Nat} {p : String} :
    inBucket m h p ↔ p ∈ (bucket? m h).getD [] := by
  unfold inBucket
  cases hb : bucket? m h <;> simp [hb]

theorem inBucket_mapInsert {m : HashToPaths} {h h' : Nat} {p q : String} :
    inBucket (mapInsert h p m) h' q ↔ (h' = h ∧ q = p) ∨ inBucket m h' q := by
  by_cases hh : h' = h
  · subst hh
    rw [inBucket_iff_mem_getD, bucket?_mapInsert_self, inBucket_iff_mem_getD]
    simp [mem_insertSet]
  · rw [inBucket_iff_mem_getD, bucket?_mapInsert_ne _ _ hh, inBucket_iff_mem_getD]
    simp [hh]

theorem mem_of_bucket? {m : HashToPaths} {h : Nat} {ps : List String}
    (hb : bucket? m h = some ps) : (h, ps) ∈ m := by
  induction m with
  | nil => simp [bucket?] at hb
  | cons b rest ih =>
    obtain ⟨k, qs⟩ := b
    by_cases hk : k = h
    · subst hk
      simp [bucket?] at hb
      simp [hb]
    · simp [bucket?, hk] at hb
      exact List.mem_cons_of_mem _ (ih hb)

theorem bucket?_of_mem {m : HashToPaths} {h : Nat} {ps : List String}
    (hnd : (m.map Prod.fst).Nodup) (hm : (h, ps) ∈ m) : bucket? m h = some ps := by
  induction m with
  | nil => simp at hm
  | cons b rest ih =>
    obtain ⟨k, qs⟩ := b
    simp only [List.map_cons, List.nodup_cons] at hnd
    rcases List.mem_cons.mp hm with heq | htail
    · obtain ⟨rfl, rfl⟩ := Prod.mk.injEq .. ▸ heq
      simp [bucket?]
    · have hmem : h ∈ rest.map Prod.fst := List.mem_map.mpr ⟨(h, ps), htail, rfl⟩
      have hk : k ≠ h := fun he => hnd.1 (by rw [he]; exact hmem)
      simp [bucket?, hk, ih hnd.2 htail]

theorem bucket?_eq_none_iff {m : HashToPaths} {h : Nat} :
    bucket? m h = none ↔ h ∉ m.map Prod.fst := by
  induction m with
  | nil => simp [bucket?]
  | cons b rest ih =>
    obtain ⟨k, qs⟩ := b
    by_cases hk : k = h
    · subst hk; simp [bucket?]
    · simp [bucket?, hk, ih, Ne.symm hk]

theorem mem_mapInsert_elim {m : HashToPaths} {h h' : Nat} {p : String}
    {ps' : List String} (hm : (h', ps') ∈ mapInsert h p m) :
    (h', ps') ∈ m ∨
      (h' = h ∧ ∃ ps₀, ps' = insertSet p ps₀ ∧ ((h, ps₀) ∈ m ∨ ps₀ = [])) := by
  induction m with
  | nil =>
    simp [mapInsert] at hm
    exact Or.inr ⟨hm.1, [], hm.2, Or.inr rfl⟩
  | cons b rest ih =>
    obtain ⟨k, qs⟩ := b
    by_cases hk : k = h
    · subst hk
      simp only [mapInsert, if_pos rfl] at hm
      rcases List.mem_cons.mp hm with heq | htail
      · obtain ⟨rfl, rfl⟩ := Prod.mk.injEq .. ▸ heq
        exact Or.inr ⟨rfl, qs, rfl, Or.inl (List.mem_cons_self _ _)⟩
      · exact Or.inl (List.mem_cons_of_mem _ htail)
    · simp only [mapInsert, if_neg hk] at hm
      rcases List.mem_cons.mp hm with heq | htail
      · exact Or.inl (heq ▸ List.mem_cons_self _ _)
      · rcases ih htail with hold | ⟨rfl, ps₀, rfl, hor⟩
        · exact Or.inl (List.mem_cons_of_mem _ hold)
        · refine Or.inr ⟨rfl, ps₀, rfl, ?_⟩
          rcases hor with h₀ | h₀
          · exact Or.inl (List.mem_cons_of_mem _ h₀)
          · exact Or.inr h₀

theorem map_fst_mapInsert (h : Nat) (p : String) (m : HashToPaths) :
    (mapInsert h p m).map Prod.fst =
      if h ∈ m.map Prod.fst then m.map Prod.fst else m.map Prod.fst ++ [h] := by
  induction m with
  | nil => simp [mapInsert]
  | cons b rest ih =>
    obtain ⟨k, qs⟩ := b
    by_cases hk : k = h
    · subst hk; simp [mapInsert]
    · simp only [mapInsert, if_neg hk, List.map_cons, ih]
      by_cases hm : h ∈ rest.map Prod.fst
      · simp [hm, List.mem_cons]
      · simp [hm, List.mem_cons, Ne.symm hk]

theorem map_fst_mapInsert_nodup {h : Nat} {p : String} {m : HashToPaths}
    (hnd : (m.map Prod.fst).Nodup) : ((mapInsert h p m).map Prod.fst).Nodup := by
  rw [map_fst_mapInsert]
  split
  · exact hnd
  · next hmem =>
      rw [List.nodup_append]
      refine ⟨hnd, List.nodup_singleton h, fun a ha hb => ?_⟩
      simp only [List.mem_singleton] at hb
      exact hmem (hb ▸ ha)

/-! Lemmas about `processEntry` and `phase1`. -/

theorem processEntry_eq_action (exts : List String) (dec : String → DecodeOutcome)
    (st : Phase1State) (it : WalkItem) :
    processEntry exts dec st it =
      match entryAction exts dec it with
      | EntryAction.skip => st
      | EntryAction.fault msg => { st with errors := insertSet msg st.errors }
      | EntryAction.insert p h => { st with map := mapInsert h p st.map } := by
  cases it with
  | err e => rfl
  | entry f =>
    simp only [processEntry, entryAction]
    split
    · rfl
    · split
      · rfl
      · split
        · split <;> rfl
        · rfl

theorem entryAction_insert_accepted {exts : List String} {dec : String → DecodeOutcome}
    {it : WalkItem} {p : String} {h : Nat}
    (ha : entryAction exts dec it = EntryAction.insert p h) :
    AcceptedPath exts dec p h := by
  cases it with
  | err e => exact absurd ha (by simp [entryAction])
  | entry f =>
    simp only [entryAction] at ha
    split at ha
    · exact absurd ha (by simp)
    · split at ha
      · exact absurd ha (by simp)
      · rename_i s hext
        split at ha
        · rename_i hs
          split at ha
          · exact absurd ha (by simp)
          · exact absurd ha (by simp)
          · rename_i h' hdec
            injection ha with hp hh
            rw [hp] at hdec hext
            rw [hh] at hdec
            exact ⟨⟨s, hext, hs⟩, hdec⟩
        · exact absurd ha (by simp)

theorem phase1_nil (exts : List String) (dec : String → DecodeOutcome)
    (obs : Nat → Bool) (k : Nat) (st : Phase1State) :
    phase1 exts dec obs k [] st = st := rfl

theorem phase1_cons (exts : List String) (dec : String → DecodeOutcome)
    (obs : Nat → Bool) (k : Nat) (it : WalkItem) (rest : List WalkItem)
    (st : Phase1State) :
    phase1 exts dec obs k (it :: rest) st =
      phase1 exts dec obs (k + 1) rest
        (if obs k then st else processEntry exts dec st it) := rfl

theorem phase1_shift (exts : List String) (dec : String → DecodeOutcome)
    (obs : Nat → Bool) :
    ∀ (items : List WalkItem) (k : Nat) (st : Phase1State),
      phase1 exts dec obs (k + 1) items st =
        phase1 exts dec (fun n => obs (n + 1)) k items st := by
  intro items
  induction items with
  | nil => intro k st; rfl
  | cons it rest ih =>
    intro k st
    rw [phase1_cons, phase1_cons, ih]

theorem phase1_all_true {exts : List String} {dec : String → DecodeOutcome}
    {obs : Nat → Bool} (hobs : ∀ n, obs n = true) :
    ∀ (items : List WalkItem) (k : Nat) (st : Phase1State),
      phase1 exts dec obs k items st = st := by
  intro items
  induction items with
  | nil => intro k st; rfl
  | cons it rest ih =>
    intro k st
    rw [phase1_cons, hobs k, if_pos rfl, ih]

theorem phase1_noCancel_foldl (exts : List String) (dec : String → DecodeOutcome) :
    ∀ (items : List WalkItem) (k : Nat) (st : Phase1State),
      phase1 exts dec noCancel k items st = items.foldl (processEntry exts dec) st := by
  intro items
  induction items with
  | nil => intro k st; rfl
  | cons it rest ih =>
    intro k st
    rw [phase1_cons, List.foldl_cons, ih]
    rfl

theorem MapWF_nil (exts : List String) (dec : String → DecodeOutcome) :
    MapWF exts dec [] := by
  constructor
  · simp
  · intro h ps hm; simp at hm

theorem MapWF_mapInsert {exts : List String} {dec : String → DecodeOutcome}
    {m : HashToPaths} {p : String} {h : Nat} (hwf : MapWF exts dec m)
    (hacc : AcceptedPath exts dec p h) : MapWF exts dec (mapInsert h p m) := by
  obtain ⟨hnd, hmem⟩ := hwf
  refine ⟨map_fst_mapInsert_nodup hnd, ?_⟩
  intro h' ps' hm
  rcases mem_mapInsert_elim hm with hold | ⟨heq, ps₀, rfl, hor⟩
  · exact hmem h' ps' hold
  · subst heq
    rcases hor with h₀ | rfl
    · obtain ⟨hnd₀, hacc₀⟩ := hmem _ ps₀ h₀
      refine ⟨insertSet_nodup hnd₀, ?_⟩
      intro q hq
      rcases mem_insertSet.mp hq with rfl | hq₀
      · exact hacc
      · exact hacc₀ q hq₀
    · refine ⟨insertSet_nodup (List.nodup_nil), ?_⟩
      intro q hq
      rcases mem_insertSet.mp hq with rfl | hq₀
      · exact hacc
      · simp at hq₀

theorem MapWF_processEntry {exts : List String} {dec : String → DecodeOutcome}
    {st : Phase1State} (hwf : MapWF exts dec st.map) (it : WalkItem) :
    MapWF exts dec (processEntry exts dec st it).map := by
  rw [processEntry_eq_action]
  cases ha : entryAction exts dec it with
  | skip => exact hwf
  | fault msg => exact hwf
  | insert p h => exact MapWF_mapInsert hwf (entryAction_insert_accepted ha)

theorem MapWF_foldl_processEntry {exts : List String} {dec : String → DecodeOutcome} :
    ∀ (items : List WalkItem) (st : Phase1State), MapWF exts dec st.map →
      MapWF exts dec (items.foldl (processEntry exts dec) st).map := by
  intro items
  induction items with
  | nil => intro st h; exact h
  | cons it rest ih =>
    intro st h
    exact ih _ (MapWF_processEntry h it)

theorem MapWF_phase1 {exts : List String} {dec : String → DecodeOutcome}
    {obs : Nat → Bool} :
    ∀ (items : List WalkItem) (k : Nat) (st : Phase1State), MapWF exts dec st.map →
      MapWF exts dec (phase1 exts dec obs k items st).map := by
  intro items
  induction items with
  | nil => intro k st h; exact h
  | cons it rest ih =>
    intro k st h
    rw [phase1_cons]
    cases hk : obs k with
    | true => simpa using ih (k + 1) st (by simpa [hk])
    | false =>
      have := MapWF_processEntry h it
      simpa [hk] using ih (k + 1) _ (by simpa [hk] using this)

theorem inBucket_foldl_processEntry (exts : List String) (dec : String → DecodeOutcome) :
    ∀ (items : List WalkItem) (st : Phase1State) (h : Nat) (p : String),
      inBucket (items.foldl (processEntry exts dec) st).map h p ↔
        inBucket st.map h p ∨
          ∃ it ∈ items, entryAction exts dec it = EntryAction.insert p h := by
  intro items
  induction items with
  | nil => intro st h p; simp
  | cons it rest ih =>
    intro st h p
    rw [List.foldl_cons, ih, processEntry_eq_action]
    cases ha : entryAction exts dec it with
    | skip =>
      simp only [List.mem_cons]
      constructor
      · rintro (hb | ⟨it', hit', hact⟩)
        · exact Or.inl hb
        · exact Or.inr ⟨it', Or.inr hit', hact⟩
      · rintro (hb | ⟨it', hit' | hit', hact⟩)
        · exact Or.inl hb
        · rw [hit'] at hact; rw [hact] at ha; exact absurd ha (by simp)
        · exact Or.inr ⟨it', hit', hact⟩
    | fault msg =>
      simp only [List.mem_cons]
      constructor
      · rintro (hb | ⟨it', hit', hact⟩)
        · exact Or.inl hb
        · exact Or.inr ⟨it', Or.inr hit', hact⟩
      · rintro (hb | ⟨it', hit' | hit', hact⟩)
        · exact Or.inl hb
        · rw [hit'] at hact; rw [hact] at ha; exact absurd ha (by simp)
        · exact Or.inr ⟨it', hit', hact⟩
    | insert q h' =>
      simp only [inBucket_mapInsert, List.mem_cons]
      constructor
      · rintro ((⟨rfl, rfl⟩ | hb) | ⟨it', hit', hact⟩)
        · exact Or.inr ⟨it, Or.inl rfl, ha⟩
        · exact Or.inl hb
        · exact Or.inr ⟨it', Or.inr hit', hact⟩
      · rintro (hb | ⟨it', hit' | hit', hact⟩)
        · exact Or.inl (Or.inr hb)
        · rw [hit'] at hact; rw [hact] at ha
          obtain ⟨rfl, rfl⟩ : q = p ∧ h' = h := by
            constructor <;> cases ha <;> rfl
          exact Or.inl (Or.inl ⟨rfl, rfl⟩)
        · exact Or.inr ⟨it', hit', hact⟩

theorem errors_mono_processEntry {exts : List String} {dec : String → DecodeOutcome}
    {st : Phase1State} {x : String} (hx : x ∈ st.errors) (it : WalkItem) :
    x ∈ (processEntry exts dec st it).errors := by
  rw [processEntry_eq_action]
  cases entryAction exts dec it with
  | skip => exact hx
  | fault msg => exact mem_insertSet_of_mem hx
  | insert p h => exact hx

theorem errors_mono_foldl_processEntry {exts : List String} {dec : String → DecodeOutcome} :
    ∀ (items : List WalkItem) (st : Phase1State) (x : String), x ∈ st.errors →
      x ∈ (items.foldl (processEntry exts dec) st).errors := by
  intro items
  induction items with
  | nil => intro st x hx; exact hx
  | cons it rest ih =>
    intro st x hx
    exact ih _ x (errors_mono_processEntry hx it)

theorem errors_nodup_foldl_processEntry {exts : List String} {dec : String → DecodeOutcome} :
    ∀ (items : List WalkItem) (st : Phase1State), st.errors.Nodup →
      (items.foldl (processEntry exts dec) st).errors.Nodup := by
  intro items
  induction items with
  | nil => intro st h; exact h
  | cons it rest ih =>
    intro st h
    refine ih _ ?_
    rw [processEntry_eq_action]
    cases entryAction exts dec it with
    | skip => exact h
    | fault msg => exact insertSet_nodup h
    | insert p h' => exact h

theorem map_foldl_processEntry_errors_indep (exts : List String)
    (dec : String → DecodeOutcome) :
    ∀ (items : List WalkItem) (m : HashToPaths) (e₁ e₂ : List String),
      (items.foldl (processEntry exts dec) { map := m, errors := e₁ }).map =
        (items.foldl (processEntry exts dec) { map := m, errors := e₂ }).map := by
  intro items
  induction items with
  | nil => intro m e₁ e₂; rfl
  | cons it rest ih =>
    intro m e₁ e₂
    rw [List.foldl_cons, List.foldl_cons, processEntry_eq_action,
      processEntry_eq_action]
    cases entryAction exts dec it with
    | skip => exact ih m e₁ e₂
    | fault msg => exact ih m _ _
    | insert p h => exact ih _ e₁ e₂

/-! Lemmas about `matPath`, `matBucket` and the materialization pass. -/

theorem matPath_canceled {dm : List Nat → Option (Nat × Nat)} {fs : String → LoadOutcome}
    {obs : Nat → Bool} {st : PathLoopState} (hc : st.canceled = true) (p : String) :
    matPath dm fs obs st p = st := by
  unfold matPath
  rw [if_pos hc]

theorem foldl_matPath_canceled {dm : List Nat → Option (Nat × Nat)}
    {fs : String → LoadOutcome} {obs : Nat → Bool} :
    ∀ (ps : List String) (st : PathLoopState), st.canceled = true →
      ps.foldl (matPath dm fs obs) st = st := by
  intro ps
  induction ps with
  | nil => intro st _; rfl
  | cons p rest ih =>
    intro st hc
    rw [List.foldl_cons, matPath_canceled hc, ih st hc]

theorem foldl_matPath_canceled_stays {dm : List Nat → Option (Nat × Nat)}
    {fs : String → LoadOutcome} {obs : Nat → Bool} (ps : List String)
    (st : PathLoopState) (hc : st.canceled = true) :
    (ps.foldl (matPath dm fs obs) st).canceled = true := by
  rw [foldl_matPath_canceled ps st hc]
  exact hc

theorem matPath_step {dm : List Nat → Option (Nat × Nat)} {fs : String → LoadOutcome}
    {obs : Nat → Bool} {st : PathLoopState} (hc : st.canceled = false) (p : String) :
    matPath dm fs obs st p =
      match Image.load dm fs p with
      | Except.ok img =>
          { k := st.k + 1, v := st.v ++ [img], errors := st.errors,
            loads := st.loads ++ [p], canceled := obs st.k }
      | Except.error e =>
          { k := st.k + 1, v := st.v, errors := insertSet e st.errors,
            loads := st.loads ++ [p], canceled := obs st.k } := by
  unfold matPath
  rw [if_neg (by rw [hc]; exact Bool.false_ne_true)]
  cases Image.load dm fs p <;> cases hobs : obs st.k <;> simp [hobs, hc]

theorem foldl_matPath_noCancel (dm : List Nat → Option (Nat × Nat))
    (fs : String → LoadOutcome) :
    ∀ (ps : List String) (st : PathLoopState), st.canceled = false →
      ps.foldl (matPath dm fs noCancel) st =
        { k := st.k + ps.length, v := st.v ++ materializeGroup dm fs ps,
          errors := insertLoadErrors dm fs ps st.errors,
          loads := st.loads ++ ps, canceled := false } := by
  intro ps
  induction ps with
  | nil =>
    intro st hc
    simp only [List.foldl_nil, materializeGroup, List.filterMap_nil, List.append_nil,
      insertLoadErrors, List.length_nil, Nat.add_zero]
    cases st
    simp_all
  | cons p rest ih =>
    intro st hc
    rw [List.foldl_cons, matPath_step hc]
    cases hload : Image.load dm fs p with
    | ok img =>
      rw [ih _ rfl]
      simp only [materializeGroup, List.filterMap_cons, loadOk, hload, Except.toOption,
        insertLoadErrors, List.foldl_cons, List.length_cons]
      simp [List.append_assoc, Nat.add_comm, Nat.add_assoc, Nat.add_left_comm]
    | error e =>
      rw [ih _ rfl]
      simp only [materializeGroup, List.filterMap_cons, loadOk, hload, Except.toOption,
        insertLoadErrors, List.foldl_cons, List.length_cons]
      simp [List.append_assoc, Nat.add_comm, Nat.add_assoc, Nat.add_left_comm]

theorem foldl_matPath_cases (dm : List Nat → Option (Nat × Nat))
    (fs : String → LoadOutcome) (obs : Nat → Bool) :
    ∀ (ps : List String) (st : PathLoopState), st.canceled = false →
      (ps.foldl (matPath dm fs obs) st).canceled = true ∨
        ps.foldl (matPath dm fs obs) st =
          { k := st.k + ps.length, v := st.v ++ materializeGroup dm fs ps,
            errors := insertLoadErrors dm fs ps st.errors,
            loads := st.loads ++ ps, canceled := false } := by
  intro ps
  induction ps with
  | nil =>
    intro st hc
    refine Or.inr ?_
    simp only [List.foldl_nil, materializeGroup, List.filterMap_nil, List.append_nil,
      insertLoadErrors, List.length_nil, Nat.add_zero]
    cases st
    simp_all
  | cons p rest ih =>
    intro st hc
    rw [List.foldl_cons, matPath_step hc]
    cases hobs : obs st.k with
    | true =>
      cases hload : Image.load dm fs p with
      | ok img => exact Or.inl (foldl_matPath_canceled_stays rest _ rfl)
      | error e => exact Or.inl (foldl_matPath_canceled_stays rest _ rfl)
    | false =>
      cases hload : Image.load dm fs p with
      | ok img =>
        have h' := ih { k := st.k + 1, v := st.v ++ [img], errors := st.errors, loads := st.loads ++ [p], canceled := false } rfl
        rcases h' with hcl | heq
        · exact Or.inl hcl
        · refine Or.inr ?_
          rw [heq]
          simp only [materializeGroup, List.filterMap_cons, loadOk, hload, Except.toOption,
            insertLoadErrors, List.foldl_cons, List.length_cons]
          simp [List.append_assoc, Nat.add_comm, Nat.add_assoc, Nat.add_left_comm]
      | error e =>
        have h' := ih { k := st.k + 1, v := st.v, errors := insertSet e st.errors, loads := st.loads ++ [p], canceled := false } rfl
        rcases h' with hcl | heq
        · exact Or.inl hcl
        · refine Or.inr ?_
          rw [heq]
          simp only [materializeGroup, List.filterMap_cons, loadOk, hload, Except.toOption,
            insertLoadErrors, List.foldl_cons, List.length_cons]
          simp [List.append_assoc, Nat.add_comm, Nat.add_assoc, Nat.add_left_comm]

theorem foldl_matPath_loads (dm : List Nat → Option (Nat × Nat))
    (fs : String → LoadOutcome) (obs : Nat → Bool) :
    ∀ (ps : List String) (st : PathLoopState) (q : String),
      q ∈ (ps.foldl (matPath dm fs obs) st).loads → q ∈ st.loads ∨ q ∈ ps := by
  intro ps
  induction ps with
  | nil => intro st q hq; exact Or.inl hq
  | cons p rest ih =>
    intro st q hq
    rw [List.foldl_cons] at hq
    cases hc : st.canceled with
    | true =>
      rw [matPath_canceled hc] at hq
      rcases ih st q hq with h | h
      · exact Or.inl h
      · exact Or.inr (List.mem_cons_of_mem _ h)
    | false =>
      rw [matPath_step hc] at hq
      have key : ∀ st' : PathLoopState, st'.loads = st.loads ++ [p] →
          q ∈ (rest.foldl (matPath dm fs obs) st').loads → q ∈ st.loads ∨ q = p ∨ q ∈ rest := by
        intro st' hst' hq'
        rcases ih st' q hq' with h | h
        · rw [hst'] at h
          rcases List.mem_append.mp h with h | h
          · exact Or.inl h
          · exact Or.inr (Or.inl (List.mem_singleton.mp h))
        · exact Or.inr (Or.inr h)
      cases hload : Image.load dm fs p with
      | ok img =>
        rw [hload] at hq
        rcases key _ rfl hq with h | h | h
        · exact Or.inl h
        · exact Or.inr (h ▸ List.mem_cons_self _ _)
        · exact Or.inr (List.mem_cons_of_mem _ h)
      | error e =>
        rw [hload] at hq
        rcases key _ rfl hq with h | h | h
        · exact Or.inl h
        · exact Or.inr (h ▸ List.mem_cons_self _ _)
        · exact Or.inr (List.mem_cons_of_mem _ h)

theorem matBucket_canceled {dm : List Nat → Option (Nat × Nat)} {fs : String → LoadOutcome}
    {obs : Nat → Bool} {st : BucketLoopState} (hc : st.canceled = true)
    (b : Nat × List String) : matBucket dm fs obs st b = st := by
  unfold matBucket
  rw [if_pos hc]

theorem foldl_matBucket_canceled {dm : List Nat → Option (Nat × Nat)}
    {fs : String → LoadOutcome} {obs : Nat → Bool} :
    ∀ (m : HashToPaths) (st : BucketLoopState), st.canceled = true →
      m.foldl (matBucket dm fs obs) st = st := by
  intro m
  induction m with
  | nil => intro st _; rfl
  | cons b rest ih =>
    intro st hc
    rw [List.foldl_cons, matBucket_canceled hc, ih st hc]

theorem foldl_matBucket_canceled_stays {dm : List Nat → Option (Nat × Nat)}
    {fs : String → LoadOutcome} {obs : Nat → Bool} (m : HashToPaths)
    (st : BucketLoopState) (hc : st.canceled = true) :
    (m.foldl (matBucket dm fs obs) st).canceled = true := by
  rw [foldl_matBucket_canceled m st hc]
  exact hc

theorem matBucket_cancelObs {dm : List Nat → Option (Nat × Nat)} {fs : String → LoadOutcome}
    {obs : Nat → Bool} {st : BucketLoopState} (hc : st.canceled = false)
    (hobs : obs st.k = true) (b : Nat × List String) :
    matBucket dm fs obs st b = { st with k := st.k + 1, canceled := true } := by
  unfold matBucket
  rw [if_neg (by rw [hc]; exact Bool.false_ne_true), if_pos hobs]

theorem matBucket_step {dm : List Nat → Option (Nat × Nat)} {fs : String → LoadOutcome}
    {obs : Nat → Bool} {st : BucketLoopState} (hc : st.canceled = false)
    (hobs : obs st.k = false) (b : Nat × List String) :
    matBucket dm fs obs st b =
      if b.2.length ≤ 1 then { st with k := st.k + 1 }
      else
        let inner := b.2.foldl (matPath dm fs obs)
          { k := st.k + 1, v := [], errors := st.errors, loads := st.loads, canceled := false }
        if inner.canceled then
          { k := inner.k, duplicates := st.duplicates, errors := inner.errors,
            loads := inner.loads, canceled := true }
        else
          { k := inner.k, duplicates := st.duplicates ++ [inner.v], errors := inner.errors,
            loads := inner.loads, canceled := false } := by
  unfold matBucket
  rw [if_neg (by rw [hc]; exact Bool.false_ne_true),
    if_neg (by rw [hobs]; exact Bool.false_ne_true)]

theorem insertLoadErrors_append (dm : List Nat → Option (Nat × Nat))
    (fs : String → LoadOutcome) (ps qs : List String) (errs : List String) :
    insertLoadErrors dm fs (ps ++ qs) errs =
      insertLoadErrors dm fs qs (insertLoadErrors dm fs ps errs) := by
  unfold insertLoadErrors
  exact List.foldl_append ..

theorem foldl_matBucket_noCancel (dm : List Nat → Option (Nat × Nat))
    (fs : String → LoadOutcome) :
    ∀ (m : HashToPaths) (st : BucketLoopState), st.canceled = false →
      ∃ k', m.foldl (matBucket dm fs noCancel) st =
        { k := k',
          duplicates := st.duplicates ++
            (m.filter (fun b => 1 < b.2.length)).map (fun b => materializeGroup dm fs b.2),
          errors := insertLoadErrors dm fs
            ((m.filter (fun b => 1 < b.2.length)).map Prod.snd).flatten st.errors,
          loads := st.loads ++ ((m.filter (fun b => 1 < b.2.length)).map Prod.snd).flatten,
          canceled := false } := by
  intro m
  induction m with
  | nil =>
    intro st hc
    refine ⟨st.k, ?_⟩
    simp only [List.foldl_nil, List.filter_nil, List.map_nil, List.flatten_nil,
      List.append_nil, insertLoadErrors, List.foldl_nil]
    cases st
    simp_all
  | cons b rest ih =>
    intro st hc
    rw [List.foldl_cons, matBucket_step hc rfl]
    by_cases hlen : b.2.length ≤ 1
    · rw [if_pos hlen]
      have hfilt : decide (1 < b.2.length) = false := by
        simp [Nat.not_lt.mpr hlen]
      obtain ⟨k', hk'⟩ := ih { st with k := st.k + 1 } (by simpa using hc)
      refine ⟨k', ?_⟩
      rw [hk']
      simp [List.filter_cons, hfilt]
    · rw [if_neg hlen]
      have hfilt : decide (1 < b.2.length) = true := by
        simp [Nat.lt_of_not_le (fun h => hlen h)]
      have hinner := foldl_matPath_noCancel dm fs b.2
        { k := st.k + 1, v := [], errors := st.errors, loads := st.loads, canceled := false } rfl
      simp only [hinner]
      simp only [List.nil_append, if_neg (by exact Bool.false_ne_true)]
      obtain ⟨k', hk'⟩ := ih
        { k := st.k + 1 + b.2.length, duplicates := st.duplicates ++ [materializeGroup dm fs b.2],
          errors := insertLoadErrors dm fs b.2 st.errors,
          loads := st.loads ++ b.2, canceled := false } rfl
      refine ⟨k', ?_⟩
      rw [hk']
      simp only [List.filter_cons, hfilt, if_true, List.map_cons, List.flatten_cons]
      rw [insertLoadErrors_append, List.append_assoc]
      simp [List.append_assoc]

theorem foldl_matBucket_total (dm : List Nat → Option (Nat × Nat))
    (fs : String → LoadOutcome) (obs : Nat → Bool) :
    ∀ (m : HashToPaths) (st : BucketLoopState), st.canceled = false →
      (m.foldl (matBucket dm fs obs) st).canceled = true ∨
        m.foldl (matBucket dm fs obs) st = m.foldl (matBucket dm fs noCancel) st := by
  intro m
  induction m with
  | nil => intro st _; exact Or.inr rfl
  | cons b rest ih =>
    intro st hc
    rw [List.foldl_cons, List.foldl_cons]
    cases hobs : obs st.k with
    | true =>
      rw [matBucket_cancelObs hc hobs]
      exact Or.inl (foldl_matBucket_canceled_stays rest _ rfl)
    | false =>
      rw [matBucket_step hc hobs, matBucket_step hc rfl]
      by_cases hlen : b.2.length ≤ 1
      · rw [if_pos hlen, if_pos hlen]
        exact ih { st with k := st.k + 1 } (by simpa using hc)
      · rw [if_neg hlen, if_neg hlen]
        have hinner := foldl_matPath_cases dm fs obs b.2
          { k := st.k + 1, v := [], errors := st.errors, loads := st.loads, canceled := false } rfl
        have hinner' := foldl_matPath_noCancel dm fs b.2
          { k := st.k + 1, v := [], errors := st.errors, loads := st.loads, canceled := false } rfl
        rcases hinner with hcl | heq
        · simp only [hcl, if_true]
          exact Or.inl (foldl_matBucket_canceled_stays rest _ rfl)
        · rw [heq, hinner']
          simp only [if_neg (by exact Bool.false_ne_true)]
          exact ih _ rfl

theorem foldl_matBucket_loads_subset (dm : List Nat → Option (Nat × Nat))
    (fs : String → LoadOutcome) (obs : Nat → Bool) :
    ∀ (m : HashToPaths) (st : BucketLoopState) (q : String),
      q ∈ (m.foldl (matBucket dm fs obs) st).loads →
        q ∈ st.loads ∨ ∃ b, b ∈ m ∧ 1 < b.2.length ∧ q ∈ b.2 := by
  intro m
  induction m with
  | nil => intro st q hq; exact Or.inl hq
  | cons b rest ih =>
    intro st q hq
    rw [List.foldl_cons] at hq
    have lift : ∀ st' : BucketLoopState, st'.loads = st.loads →
        q ∈ (rest.foldl (matBucket dm fs obs) st').loads →
        q ∈ st.loads ∨ ∃ b', b' ∈ b :: rest ∧ 1 < b'.2.length ∧ q ∈ b'.2 := by
      intro st' hst' hq'
      rcases ih st' q hq' with h | ⟨b', hb', hlenb', hqb'⟩
      · exact Or.inl (hst' ▸ h)
      · exact Or.inr ⟨b', List.mem_cons_of_mem _ hb', hlenb', hqb'⟩
    cases hc : st.canceled with
    | true =>
      rw [matBucket_canceled hc] at hq
      exact lift st rfl hq
    | false =>
      cases hobs : obs st.k with
      | true =>
        rw [matBucket_cancelObs hc hobs] at hq
        exact lift { st with k := st.k + 1, canceled := true } rfl hq
      | false =>
        rw [matBucket_step hc hobs] at hq
        by_cases hlen : b.2.length ≤ 1
        · rw [if_pos hlen] at hq
          exact lift { st with k := st.k + 1 } rfl hq
        · rw [if_neg hlen] at hq
          simp only at hq
          set inner := b.2.foldl (matPath dm fs obs)
            { k := st.k + 1, v := [], errors := st.errors, loads := st.loads,
              canceled := false } with hinner
          have hinloads : ∀ x, x ∈ inner.loads → x ∈ st.loads ∨ x ∈ b.2 := by
            intro x hx
            exact foldl_matPath_loads dm fs obs b.2 _ x hx
          have key : ∀ st' : BucketLoopState, st'.loads = inner.loads →
              q ∈ (rest.foldl (matBucket dm fs obs) st').loads →
              q ∈ st.loads ∨ ∃ b', b' ∈ b :: rest ∧ 1 < b'.2.length ∧ q ∈ b'.2 := by
            intro st' hst' hq'
            rcases ih st' q hq' with h | ⟨b', hb', hlenb', hqb'⟩
            · rw [hst'] at h
              rcases hinloads q h with h' | h'
              · exact Or.inl h'
              · exact Or.inr ⟨b, List.mem_cons_self _ _, Nat.lt_of_not_le hlen, h'⟩
            · exact Or.inr ⟨b', List.mem_cons_of_mem _ hb', hlenb', hqb'⟩
          by_cases hic : inner.canceled
          · rw [if_pos hic] at hq
            exact key _ rfl hq
          · rw [if_neg hic] at hq
            exact key _ rfl hq

/-! Lemmas about `materializeGroup` and `Image.load`. -/

theorem loadOk_path {dm : List Nat → Option (Nat × Nat)} {fs : String → LoadOutcome}
    {p : String} {img : Image} (h : loadOk dm fs p = some img) : img.path = p := by
  unfold loadOk Image.load at h
  cases hfs : fs p <;> rw [hfs] at h
  · simp [Except.toOption] at h
  · simp [Except.toOption] at h
  · simp only [Except.toOption, Option.some.injEq] at h
    rw [← h]
    rfl

theorem mem_materializeGroup {dm : List Nat → Option (Nat × Nat)}
    {fs : String → LoadOutcome} {ps : List String} {img : Image} :
    img ∈ materializeGroup dm fs ps ↔ ∃ p ∈ ps, loadOk dm fs p = some img := by
  unfold materializeGroup
  exact List.mem_filterMap

theorem map_path_materializeGroup (dm : List Nat → Option (Nat × Nat))
    (fs : String → LoadOutcome) (ps : List String) :
    (materializeGroup dm fs ps).map Image.path = ps.filter (loadable dm fs) := by
  induction ps with
  | nil => rfl
  | cons p rest ih =>
    unfold materializeGroup at ih ⊢
    rw [List.filterMap_cons, List.filter_cons]
    cases hlo : loadOk dm fs p with
    | none => simp [loadable, hlo, ih]
    | some img => simp [loadable, hlo, ih, loadOk_path hlo]

theorem materializeGroup_length_allOk {dm : List Nat → Option (Nat × Nat)}
    {fs : String → LoadOutcome} (hfs : ∀ p, ∃ buf, fs p = LoadOutcome.okBytes buf) :
    ∀ ps : List String, (materializeGroup dm fs ps).length = ps.length := by
  intro ps
  induction ps with
  | nil => rfl
  | cons p rest ih =>
    obtain ⟨buf, hbuf⟩ := hfs p
    unfold materializeGroup at ih ⊢
    rw [List.filterMap_cons]
    have : loadOk dm fs p = some (Image.new p buf (dm buf)) := by
      unfold loadOk Image.load
      rw [hbuf]
      rfl
    rw [this]
    simp [ih]

/-! Lemmas about the full scan. -/

theorem MapWF_phase1_init (exts : List String) (dec : String → DecodeOutcome)
    (obs : Nat → Bool) (items : List WalkItem) :
    MapWF exts dec (phase1 exts dec obs 0 items { map := [], errors := [] }).map :=
  MapWF_phase1 items 0 _ (MapWF_nil exts dec)

theorem inBucket_phase1_iff (exts : List String) (dec : String → DecodeOutcome)
    (items : List WalkItem) (h : Nat) (p : String) :
    inBucket (items.foldl (processEntry exts dec) { map := [], errors := [] }).map h p ↔
      ∃ it ∈ items, entryAction exts dec it = EntryAction.insert p h := by
  rw [inBucket_foldl_processEntry]
  simp [inBucket, bucket?]

theorem searchModel_noCancel_eq (exts : List String) (dec : String → DecodeOutcome)
    (dm : List Nat → Option (Nat × Nat)) (fs : String → LoadOutcome)
    (items : List WalkItem) :
    searchModel exts dec dm fs noCancel noCancel items =
      { results := {
          duplicates :=
            ((items.foldl (processEntry exts dec) { map := [], errors := [] }).map.filter
              (fun b => 1 < b.2.length)).map (fun b => materializeGroup dm fs b.2),
          errors := insertLoadErrors dm fs
            (((items.foldl (processEntry exts dec) { map := [], errors := [] }).map.filter
              (fun b => 1 < b.2.length)).map Prod.snd).flatten
            (items.foldl (processEntry exts dec) { map := [], errors := [] }).errors },
        loads :=
          (((items.foldl (processEntry exts dec) { map := [], errors := [] }).map.filter
            (fun b => 1 < b.2.length)).map Prod.snd).flatten } := by
  simp only [searchModel]
  rw [phase1_noCancel_foldl]
  obtain ⟨k', hk'⟩ := foldl_matBucket_noCancel dm fs
    (items.foldl (processEntry exts dec) { map := [], errors := [] }).map
    { k := 0, duplicates := [],
      errors := (items.foldl (processEntry exts dec) { map := [], errors := [] }).errors,
      loads := [], canceled := false } rfl
  rw [hk']
  simp

theorem searchModel_dup_mem (exts : List String) (dec : String → DecodeOutcome)
    (dm : List Nat → Option (Nat × Nat)) (fs : String → LoadOutcome)
    (obs1 obs2 : Nat → Bool) (items : List WalkItem) {g : List Image}
    (hg : g ∈ (searchModel exts dec dm fs obs1 obs2 items).results.duplicates) :
    ∃ h ps, (h, ps) ∈ (phase1 exts dec obs1 0 items { map := [], errors := [] }).map ∧
      1 < ps.length ∧ g = materializeGroup dm fs ps := by
  simp only [searchModel] at hg
  rcases foldl_matBucket_total dm fs obs2
      (phase1 exts dec obs1 0 items { map := [], errors := [] }).map
      { k := 0, duplicates := [],
        errors := (phase1 exts dec obs1 0 items { map := [], errors := [] }).errors,
        loads := [], canceled := false } rfl with hcl | heq
  · rw [if_pos hcl] at hg
    simp [SearchResults.empty] at hg
  · rw [heq] at hg
    obtain ⟨k', hk'⟩ := foldl_matBucket_noCancel dm fs
      (phase1 exts dec obs1 0 items { map := [], errors := [] }).map
      { k := 0, duplicates := [],
        errors := (phase1 exts dec obs1 0 items { map := [], errors := [] }).errors,
        loads := [], canceled := false } rfl
    rw [hk'] at hg
    simp only [Bool.false_eq_true, if_false, List.nil_append] at hg
    rw [List.mem_map] at hg
    obtain ⟨b, hb, rfl⟩ := hg
    rw [List.mem_filter] at hb
    exact ⟨b.1, b.2, hb.1, by simpa using hb.2, rfl⟩

theorem searchModel_loads_mem (exts : List String) (dec : String → DecodeOutcome)
    (dm : List Nat → Option (Nat × Nat)) (fs : String → LoadOutcome)
    (obs1 obs2 : Nat → Bool) (items : List WalkItem) {q : String}
    (hq : q ∈ (searchModel exts dec dm fs obs1 obs2 items).loads) :
    ∃ h ps, (h, ps) ∈ (phase1 exts dec obs1 0 items { map := [], errors := [] }).map ∧
      1 < ps.length ∧ q ∈ ps := by
  simp only [searchModel] at hq
  have hload : q ∈ ((phase1 exts dec obs1 0 items { map := [], errors := [] }).map.foldl
      (matBucket dm fs obs2)
      { k := 0, duplicates := [],
        errors := (phase1 exts dec obs1 0 items { map := [], errors := [] }).errors,
        loads := [], canceled := false }).loads := by
    split at hq <;> exact hq
  rcases foldl_matBucket_loads_subset dm fs obs2 _ _ q hload with h | ⟨b, hb, hlen, hqb⟩
  · simp at h
  · exact ⟨b.1, b.2, hb, hlen, hqb⟩

theorem insertLoadErrors_mem_mono {dm : List Nat → Option (Nat × Nat)}
    {fs : String → LoadOutcome} :
    ∀ (ps : List String) (errs : List String) (x : String), x ∈ errs →
      x ∈ insertLoadErrors dm fs ps errs := by
  intro ps
  induction ps with
  | nil => intro errs x hx; exact hx
  | cons p rest ih =>
    intro errs x hx
    unfold insertLoadErrors at ih ⊢
    rw [List.foldl_cons]
    cases Image.load dm fs p with
    | ok img => exact ih errs x hx
    | error e => exact ih _ x (mem_insertSet_of_mem hx)

theorem insertLoadErrors_nodup {dm : List Nat → Option (Nat × Nat)}
    {fs : String → LoadOutcome} :
    ∀ (ps : List String) (errs : List String), errs.Nodup →
      (insertLoadErrors dm fs ps errs).Nodup := by
  intro ps
  induction ps with
  | nil => intro errs hx; exact hx
  | cons p rest ih =>
    intro errs hx
    unfold insertLoadErrors at ih ⊢
    rw [List.foldl_cons]
    cases Image.load dm fs p with
    | ok img => exact ih errs hx
    | error e => exact ih _ (insertSet_nodup hx)

theorem searchModel_duplicates_char (exts : List String) (dec : String → DecodeOutcome)
    (dm : List Nat → Option (Nat × Nat)) (fs : String → LoadOutcome)
    (obs1 obs2 : Nat → Bool) (items : List WalkItem) :
    (searchModel exts dec dm fs obs1 obs2 items).results.duplicates = [] ∨
      (searchModel exts dec dm fs obs1 obs2 items).results.duplicates =
        ((phase1 exts dec obs1 0 items { map := [], errors := [] }).map.filter
          (fun b => 1 < b.2.length)).map (fun b => materializeGroup dm fs b.2) := by
  simp only [searchModel]
  rcases foldl_matBucket_total dm fs obs2
      (phase1 exts dec obs1 0 items { map := [], errors := [] }).map
      { k := 0, duplicates := [],
        errors := (phase1 exts dec obs1 0 items { map := [], errors := [] }).errors,
        loads := [], canceled := false } rfl with hcl | heq
  · rw [if_pos hcl]
    exact Or.inl rfl
  · rw [heq]
    obtain ⟨k', hk'⟩ := foldl_matBucket_noCancel dm fs
      (phase1 exts dec obs1 0 items { map := [], errors := [] }).map
      { k := 0, duplicates := [],
        errors := (phase1 exts dec obs1 0 items { map := [], errors := [] }).errors,
        loads := [], canceled := false } rfl
    rw [hk']
    simp

/-! Concrete environment used by witnesses and counterexamples. -/

/-- Witness extension set: only `png`. -/
def exPng : List String := ["png"]

/-- Witness decode environment: `r/a.png` and `r/b.png` decode and hash to 5,
`r/c.png` hashes to 7, everything else fails to decode. -/
def exDec : String → DecodeOutcome := fun p =>
  if p = "r/a.png" ∨ p = "r/b.png" then DecodeOutcome.ok 5
  else if p = "r/c.png" then DecodeOutcome.ok 7
  else DecodeOutcome.failure "bad"

/-- Witness load environment: every open and read succeeds. -/
def exFsOk : String → LoadOutcome := fun _ => LoadOutcome.okBytes [1, 2]

/-- Witness load environment in which `r/a.png` fails to re-open. -/
def exFsAFail : String → LoadOutcome := fun p =>
  if p = "r/a.png" then LoadOutcome.openErr "gone" else LoadOutcome.okBytes [1, 2]

/-- Witness in-memory decode environment: dimensions never decode. -/
def exDm : List Nat → Option (Nat × Nat) := fun _ => none

/-- Witness walk: the root directory and three image files. -/
def exItems : List WalkItem :=
  [WalkItem.entry { path := "r", isDir := true },
   WalkItem.entry { path := "r/a.png", isDir := false },
   WalkItem.entry { path := "r/b.png", isDir := false },
   WalkItem.entry { path := "r/c.png", isDir := false }]

/-- Oracle observing cancellation from the second check onward. -/
def exObsLate : Nat → Bool := fun k => decide (1 ≤ k)

/-! Claim C1. -/

/-- C1 counterexample: a scan that observes cancellation during phase 1 (at
its second check) after having recorded a walk error returns a `SearchResults`
whose `errors` list is not empty, so the returned value is not exactly
`{duplicates: [], errors: []}`. -/
theorem c1_counterexample :
    exObsLate 1 = true ∧
      (searchModel exPng exDec exDm exFsOk exObsLate noCancel
        [WalkItem.err "boom",
         WalkItem.entry { path := "r/a.png", isDir := false }]).results ≠
        SearchResults.empty := by
  constructor
  · decide
  · decide

/-- C1 (amended): for every scan in which every cancellation check observes
the flag set — in particular one whose cancellation was requested before
phase 1 began and is visible throughout — `SearcherInner::search` returns
exactly `{duplicates: [], errors: []}`. A scan that observes cancellation only
partway through phase 1 may instead return fault records recorded before the
observation. -/
theorem c1_cancel_observed_throughout (exts : List String) (dec : String → DecodeOutcome)
    (dm : List Nat → Option (Nat × Nat)) (fs : String → LoadOutcome)
    (obs1 obs2 : Nat → Bool) (items : List WalkItem) (h1 : ∀ n, obs1 n = true) :
    (searchModel exts dec dm fs obs1 obs2 items).results = SearchResults.empty := by
  simp only [searchModel]
  rw [phase1_all_true h1]
  simp [SearchResults.empty]

/-- C1 witness: the amended theorem applied to a concrete scan whose checks
all observe cancellation. -/
theorem c1_witness :
    (searchModel exPng exDec exDm exFsOk (fun _ => true) noCancel exItems).results =
      SearchResults.empty :=
  c1_cancel_observed_throughout exPng exDec exDm exFsOk (fun _ => true) noCancel exItems
    (fun _ => rfl)

/-! Claim C2. -/

/-- C2 counterexample: with two files hashing identically and one of them
failing to re-open during materialization, the scan returns a duplicate group
with a single member, so not every returned group has at least 2 members. -/
theorem c2_counterexample :
    ¬ ∀ g ∈ (searchModel exPng exDec exDm exFsAFail noCancel noCancel
        [WalkItem.entry { path := "r/a.png", isDir := false },
         WalkItem.entry { path := "r/b.png", isDir := false }]).results.duplicates,
      2 ≤ g.length := by
  decide

/-- C2 (amended): every returned duplicate group arises from a hash bucket
with more than one member, and whenever `Image::load` succeeds on every path
(no member fails to re-load) every returned group itself has at least 2
members; a group can fall below 2 members only when re-loads fail. -/
theorem c2_group_size (exts : List String) (dec : String → DecodeOutcome)
    (dm : List Nat → Option (Nat × Nat)) (fs : String → LoadOutcome)
    (obs1 obs2 : Nat → Bool) (items : List WalkItem)
    (hfs : ∀ p, ∃ buf, fs p = LoadOutcome.okBytes buf) :
    ∀ g ∈ (searchModel exts dec dm fs obs1 obs2 items).results.duplicates,
      2 ≤ g.length := by
  intro g hg
  obtain ⟨h, ps, _, hlen, rfl⟩ := searchModel_dup_mem exts dec dm fs obs1 obs2 items hg
  rw [materializeGroup_length_allOk hfs]
  exact hlen

/-- C2 witness: the amended theorem applied to a concrete scan in which every
load succeeds and to its one returned group, which has its two members. -/
theorem c2_witness :
    2 ≤ List.length
      [Image.new "r/a.png" [1, 2] none, Image.new "r/b.png" [1, 2] none] :=
  c2_group_size exPng exDec exDm exFsOk noCancel noCancel exItems
    (fun _ => ⟨[1, 2], rfl⟩)
    [Image.new "r/a.png" [1, 2] none, Image.new "r/b.png" [1, 2] none] (by decide)

/-! Claim C6. -/

/-- C6: `launch_search` fails by precondition violation exactly when a worker
handle is present (Running or Finished-but-uncollected); otherwise it returns
the state with the cancellation flag reset to `false` and a fresh running
worker, so a scan launched after a cancelled one does not start cancelled. -/
theorem c6_launch_search (s : Searcher) :
    (s.thread.isSome = true → ∃ e, s.launch_search = Except.error e) ∧
    (s.thread = none →
      s.launch_search = Except.ok { cancel := false, thread := some WorkerStatus.running }) ∧
    (s.thread = none → ∃ s', (s.cancelRequest).launch_search = Except.ok s' ∧
      s'.was_canceled = false ∧ s'.thread = some WorkerStatus.running) := by
  refine ⟨?_, ?_, ?_⟩
  · intro h
    cases hth : s.thread with
    | none => rw [hth] at h; simp at h
    | some w =>
      refine ⟨"launch_search() called twice without wait_for_search() between", ?_⟩
      unfold Searcher.launch_search
      rw [hth]
  · intro h
    unfold Searcher.launch_search
    rw [h]
  · intro h
    refine ⟨{ cancel := false, thread := some WorkerStatus.running }, ?_, rfl, rfl⟩
    simp [Searcher.launch_search, Searcher.cancelRequest, h]

/-- C6 witness: launching from the idle state succeeds with the flag reset,
and launching from a running state fails. -/
theorem c6_witness :
    Searcher.new.launch_search =
      Except.ok { cancel := false, thread := some WorkerStatus.running } ∧
    ∃ e, ({ cancel := false, thread := some WorkerStatus.running } : Searcher).launch_search =
      Except.error e :=
  ⟨(c6_launch_search Searcher.new).2.1 rfl,
   (c6_launch_search { cancel := false, thread := some WorkerStatus.running }).1 rfl⟩

/-! Claim C7. -/

/-- C7: `Image::load` fails exactly when the file cannot be opened or read,
in which case the formatted message is returned and — inside the
materialization loop — recorded as a fault while the loop continues; when the
bytes are read, the load succeeds even if the in-memory decode fails, in which
case the returned image's dimensions are `none`. -/
theorem c7_image_load (dm : List Nat → Option (Nat × Nat)) (fs : String → LoadOutcome)
    (p : String) :
    (∀ e, fs p = LoadOutcome.openErr e →
      Image.load dm fs p = Except.error ("Error opening " ++ p ++ ": " ++ e)) ∧
    (∀ e, fs p = LoadOutcome.readErr e →
      Image.load dm fs p = Except.error ("Error reading " ++ p ++ ": " ++ e)) ∧
    (∀ buf, fs p = LoadOutcome.okBytes buf →
      Image.load dm fs p =
        Except.ok { path := p, buffer := buf, file_size := buf.length, dimm := dm buf }) ∧
    (∀ buf, fs p = LoadOutcome.okBytes buf → dm buf = none →
      ∃ img, Image.load dm fs p = Except.ok img ∧ img.dimm = none) ∧
    (∀ (obs : Nat → Bool) (st : PathLoopState) (e : String), st.canceled = false →
      obs st.k = false → Image.load dm fs p = Except.error e →
      matPath dm fs obs st p =
        { st with k := st.k + 1, errors := insertSet e st.errors, loads := st.loads ++ [p] }) := by
  refine ⟨?_, ?_, ?_, ?_, ?_⟩
  · intro e he
    unfold Image.load
    rw [he]
  · intro e he
    unfold Image.load
    rw [he]
  · intro buf hbuf
    unfold Image.load
    rw [hbuf]
    rfl
  · intro buf hbuf hdm
    refine ⟨{ path := p, buffer := buf, file_size := buf.length, dimm := dm buf }, ?_, ?_⟩
    · unfold Image.load
      rw [hbuf]
      rfl
    · exact hdm
  · intro obs st e hc hobs hload
    rw [matPath_step hc, hload, hobs]
    cases st
    simp_all

/-- C7 witness: the theorem applied to concrete environments, showing a
failing open produces the formatted error and intact bytes with a failing
decode produce an image with no dimensions. -/
theorem c7_witness :
    Image.load exDm exFsAFail "r/a.png" =
      Except.error ("Error opening " ++ "r/a.png" ++ ": " ++ "gone") ∧
    ∃ img, Image.load exDm exFsAFail "r/b.png" = Except.ok img ∧ img.dimm = none :=
  ⟨(c7_image_load exDm exFsAFail "r/a.png").1 "gone" (by decide),
   (c7_image_load exDm exFsAFail "r/b.png").2.2.2.1 [1, 2] (by decide) rfl⟩

/-! Non-interference of skipped walk items. -/

theorem searchModel_cons_skip (exts : List String) (dec : String → DecodeOutcome)
    (dm : List Nat → Option (Nat × Nat)) (fs : String → LoadOutcome)
    (obs1 obs2 : Nat → Bool) (it : WalkItem) (items : List WalkItem)
    (hskip : entryAction exts dec it = EntryAction.skip) :
    searchModel exts dec dm fs obs1 obs2 (it :: items) =
      searchModel exts dec dm fs (fun n => obs1 (n + 1)) obs2 items := by
  simp only [searchModel]
  have h1 : phase1 exts dec obs1 0 (it :: items) { map := [], errors := [] } =
      phase1 exts dec (fun n => obs1 (n + 1)) 0 items { map := [], errors := [] } := by
    rw [phase1_cons]
    have hstep : (if obs1 0 then ({ map := [], errors := [] } : Phase1State)
        else processEntry exts dec { map := [], errors := [] } it) =
        { map := [], errors := [] } := by
      split
      · rfl
      · rw [processEntry_eq_action, hskip]
    rw [hstep, phase1_shift]
  rw [h1]

/-! Claim C10. -/

/-- C10: a regular file whose path has no extension (including dotfile names
such as `.png`) is skipped silently: removing it from the walk leaves the
entire scan output — duplicate groups, fault records, and even the set of
paths passed to `Image::load` — unchanged, so it is never decoded, never
hashed, appears in no duplicate group and generates no fault record. -/
theorem c10_no_extension_skipped (exts : List String) (dec : String → DecodeOutcome)
    (dm : List Nat → Option (Nat × Nat)) (fs : String → LoadOutcome)
    (obs1 obs2 : Nat → Bool) (f : FileEntry) (items : List WalkItem)
    (hext : rustExtension f.path = none) :
    searchModel exts dec dm fs obs1 obs2 (WalkItem.entry f :: items) =
      searchModel exts dec dm fs (fun n => obs1 (n + 1)) obs2 items := by
  apply searchModel_cons_skip
  by_cases hd : f.isDir <;> simp [entryAction, hd, hext]

/-- C10 witness: Rust reports no extension for the dotfile name `.png`, and
prepending such a file to a concrete walk leaves the scan output unchanged. -/
theorem c10_witness :
    rustExtension "r/.png" = none ∧
      searchModel exPng exDec exDm exFsOk noCancel noCancel
          (WalkItem.entry { path := "r/.png", isDir := false } :: exItems) =
        searchModel exPng exDec exDm exFsOk (fun n => noCancel (n + 1)) noCancel exItems :=
  ⟨by decide,
   c10_no_extension_skipped exPng exDec exDm exFsOk noCancel noCancel
     { path := "r/.png", isDir := false } exItems (by decide)⟩

/-! Claim C4. -/

/-- C4: a file whose extension is not in the active set — and likewise a
directory — contributes nothing to the scan: removing it from the walk leaves
the whole output (duplicate groups and fault records alike) unchanged;
moreover every member of every returned duplicate group has an extension that
is in the active set. -/
theorem c4_filtered_never_appear (exts : List String) (dec : String → DecodeOutcome)
    (dm : List Nat → Option (Nat × Nat)) (fs : String → LoadOutcome)
    (obs1 obs2 : Nat → Bool) (items : List WalkItem) (f : FileEntry) :
    (∀ s, rustExtension f.path = some s → exts.contains s = false →
      searchModel exts dec dm fs obs1 obs2 (WalkItem.entry f :: items) =
        searchModel exts dec dm fs (fun n => obs1 (n + 1)) obs2 items) ∧
    (f.isDir = true →
      searchModel exts dec dm fs obs1 obs2 (WalkItem.entry f :: items) =
        searchModel exts dec dm fs (fun n => obs1 (n + 1)) obs2 items) ∧
    (∀ g ∈ (searchModel exts dec dm fs obs1 obs2 items).results.duplicates, ∀ img ∈ g,
      ∃ t, rustExtension img.path = some t ∧ exts.contains t = true) := by
  refine ⟨?_, ?_, ?_⟩
  · intro s hext hs
    apply searchModel_cons_skip
    have hs' : s ∉ exts := by simpa using hs
    by_cases hd : f.isDir <;> simp [entryAction, hd, hext, hs']
  · intro hd
    apply searchModel_cons_skip
    simp [entryAction, hd]
  · intro g hg img himg
    obtain ⟨h, ps, hmem, _, rfl⟩ := searchModel_dup_mem exts dec dm fs obs1 obs2 items hg
    obtain ⟨p, hp, hload⟩ := mem_materializeGroup.mp himg
    obtain ⟨_, hwf⟩ := MapWF_phase1_init exts dec obs1 items
    obtain ⟨⟨t, ht, hts⟩, _⟩ := (hwf h ps hmem).2 p hp
    rw [loadOk_path hload]
    exact ⟨t, ht, hts⟩

/-- C4 witness: prepending a `txt` file (extension not in the active set) to a
concrete walk leaves the scan output unchanged, and the members of the one
returned group all carry the active `png` extension. -/
theorem c4_witness :
    (searchModel exPng exDec exDm exFsOk noCancel noCancel
        (WalkItem.entry { path := "r/notes.txt", isDir := false } :: exItems) =
      searchModel exPng exDec exDm exFsOk (fun n => noCancel (n + 1)) noCancel exItems) ∧
    (∀ g ∈ (searchModel exPng exDec exDm exFsOk noCancel noCancel exItems).results.duplicates,
      ∀ img ∈ g, ∃ t, rustExtension img.path = some t ∧ exPng.contains t = true) :=
  ⟨(c4_filtered_never_appear exPng exDec exDm exFsOk noCancel noCancel exItems
      { path := "r/notes.txt", isDir := false }).1 "txt" (by decide) (by decide),
   (c4_filtered_never_appear exPng exDec exDm exFsOk noCancel noCancel exItems
      { path := "r/notes.txt", isDir := false }).2.2⟩

/-! Claim C3. -/

/-- C3: in a completed (never-cancelled) scan, a non-directory file whose
extension is in the active set but whose decode errors or panics yields
exactly one fault record (its formatted message occurs exactly once in
`errors`), appears in no returned duplicate group, and its presence leaves the
duplicate groups formed from the other walk items unchanged. -/
theorem c3_decode_fault_contained (exts : List String) (dec : String → DecodeOutcome)
    (dm : List Nat → Option (Nat × Nat)) (fs : String → LoadOutcome)
    (items : List WalkItem) (f : FileEntry) (s msg : String)
    (hdir : f.isDir = false) (hext : rustExtension f.path = some s)
    (hs : exts.contains s = true)
    (hmsg : decodeFaultMsg f.path (dec f.path) = some msg) :
    ((searchModel exts dec dm fs noCancel noCancel
        (WalkItem.entry f :: items)).results.errors.count msg = 1) ∧
    (∀ g ∈ (searchModel exts dec dm fs noCancel noCancel
        (WalkItem.entry f :: items)).results.duplicates,
      ∀ img ∈ g, img.path ≠ f.path) ∧
    ((searchModel exts dec dm fs noCancel noCancel
        (WalkItem.entry f :: items)).results.duplicates =
      (searchModel exts dec dm fs noCancel noCancel items).results.duplicates) := by
  have hnotok : ∀ h : Nat, dec f.path ≠ DecodeOutcome.ok h := by
    intro h hok
    rw [hok] at hmsg
    exact absurd hmsg (by simp [decodeFaultMsg])
  have haction : entryAction exts dec (WalkItem.entry f) = EntryAction.fault msg := by
    simp only [entryAction, hdir, if_false, Bool.false_eq_true, hext, hs, if_true]
    cases hdec : dec f.path with
    | panic =>
      rw [hdec] at hmsg
      simp only [decodeFaultMsg, Option.some.injEq] at hmsg
      rw [← hmsg]
    | failure e =>
      rw [hdec] at hmsg
      simp only [decodeFaultMsg, Option.some.injEq] at hmsg
      rw [← hmsg]
    | ok h => exact absurd hdec (hnotok h)
  have hfold : (WalkItem.entry f :: items).foldl (processEntry exts dec)
      { map := [], errors := [] } =
      items.foldl (processEntry exts dec) { map := [], errors := [msg] } := by
    rw [List.foldl_cons, processEntry_eq_action, haction]
    simp [insertSet]
  refine ⟨?_, ?_, ?_⟩
  · rw [searchModel_noCancel_eq]
    simp only [hfold]
    have hmem : msg ∈ (items.foldl (processEntry exts dec)
        { map := [], errors := [msg] }).errors :=
      errors_mono_foldl_processEntry items _ msg (List.mem_singleton.mpr rfl)
    have hnd : (items.foldl (processEntry exts dec)
        { map := [], errors := [msg] }).errors.Nodup :=
      errors_nodup_foldl_processEntry items _ (List.nodup_singleton msg)
    exact List.count_eq_one_of_mem
      (insertLoadErrors_nodup _ _ hnd)
      (insertLoadErrors_mem_mono _ _ msg hmem)
  · intro g hg img himg
    obtain ⟨h, ps, hmem, _, rfl⟩ :=
      searchModel_dup_mem exts dec dm fs noCancel noCancel _ hg
    obtain ⟨p, hp, hload⟩ := mem_materializeGroup.mp himg
    obtain ⟨_, hwf⟩ := MapWF_phase1_init exts dec noCancel (WalkItem.entry f :: items)
    obtain ⟨_, hok⟩ := (hwf h ps hmem).2 p hp
    rw [loadOk_path hload]
    intro heq
    rw [heq] at hok
    exact hnotok h hok
  · rw [searchModel_noCancel_eq, searchModel_noCancel_eq]
    simp only [hfold]
    rw [map_foldl_processEntry_errors_indep exts dec items [] [msg] []]

/-- C3 witness: a concrete scan containing a corrupt file (decode failure)
alongside a genuine duplicate pair records the fault exactly once, keeps the
corrupt file out of every group, and reports the same groups as the scan
without the corrupt file. -/
theorem c3_witness :
    ((searchModel exPng exDec exDm exFsOk noCancel noCancel
        (WalkItem.entry { path := "r/zero.png", isDir := false } :: exItems)).results.errors.count
      ("Error opening image " ++ "r/zero.png" ++ ": " ++ "bad") = 1) ∧
    ((searchModel exPng exDec exDm exFsOk noCancel noCancel
        (WalkItem.entry { path := "r/zero.png", isDir := false } :: exItems)).results.duplicates =
      (searchModel exPng exDec exDm exFsOk noCancel noCancel exItems).results.duplicates) := by
  have h := c3_decode_fault_contained exPng exDec exDm exFsOk exItems
    { path := "r/zero.png", isDir := false } "png"
    ("Error opening image " ++ "r/zero.png" ++ ": " ++ "bad")
    (by decide) (by decide) (by decide) (by decide)
  exact ⟨h.1, h.2.2⟩

/-! Claim C5. -/

/-- C5: the returned duplicate groups are indexed by pairwise distinct
perceptual hashes, and every member of a group decodes (under the configured
algorithm) to exactly its group's hash — exact hash equality is the grouping
criterion, with no distance threshold. -/
theorem c5_exact_hash_grouping (exts : List String) (dec : String → DecodeOutcome)
    (dm : List Nat → Option (Nat × Nat)) (fs : String → LoadOutcome)
    (obs1 obs2 : Nat → Bool) (items : List WalkItem) :
    ∃ hs : List Nat, hs.Nodup ∧
      List.Forall₂ (fun h g => ∀ img ∈ g, dec img.path = DecodeOutcome.ok h) hs
        (searchModel exts dec dm fs obs1 obs2 items).results.duplicates := by
  rcases searchModel_duplicates_char exts dec dm fs obs1 obs2 items with hnil | hchar
  · exact ⟨[], List.nodup_nil, hnil ▸ List.Forall₂.nil⟩
  · rw [hchar]
    refine ⟨((phase1 exts dec obs1 0 items { map := [], errors := [] }).map.filter
      (fun b => 1 < b.2.length)).map Prod.fst, ?_, ?_⟩
    · have hsub := (List.filter_sublist (l := (phase1 exts dec obs1 0 items
        { map := [], errors := [] }).map) (p := fun b => 1 < b.2.length)).map Prod.fst
      exact (MapWF_phase1_init exts dec obs1 items).1.sublist hsub
    · rw [List.forall₂_map_left_iff, List.forall₂_map_right_iff, List.forall₂_same]
      intro b hb img himg
      obtain ⟨p, hp, hload⟩ := mem_materializeGroup.mp himg
      have hmem := (List.mem_filter.mp hb).1
      obtain ⟨_, hwf⟩ := MapWF_phase1_init exts dec obs1 items
      obtain ⟨_, hok⟩ := (hwf b.1 b.2 hmem).2 p hp
      rw [loadOk_path hload]
      exact hok

/-- C5 witness: the theorem applied to a concrete scan with a two-member
group. -/
theorem c5_witness :
    ∃ hs : List Nat, hs.Nodup ∧
      List.Forall₂ (fun h g => ∀ img ∈ g, exDec img.path = DecodeOutcome.ok h) hs
        (searchModel exPng exDec exDm exFsOk noCancel noCancel exItems).results.duplicates :=
  c5_exact_hash_grouping exPng exDec exDm exFsOk noCancel noCancel exItems

/-! Claim C8. -/

/-- C8: every path passed to `Image::load` belongs to a hash bucket with more
than one member; a bucket holding exactly one path contributes nothing — its
path is never loaded and appears in no returned duplicate group. -/
theorem c8_singleton_buckets (exts : List String) (dec : String → DecodeOutcome)
    (dm : List Nat → Option (Nat × Nat)) (fs : String → LoadOutcome)
    (obs1 obs2 : Nat → Bool) (items : List WalkItem) :
    (∀ q ∈ (searchModel exts dec dm fs obs1 obs2 items).loads,
      ∃ h ps, (h, ps) ∈ (phase1 exts dec obs1 0 items { map := [], errors := [] }).map ∧
        1 < ps.length ∧ q ∈ ps) ∧
    (∀ h p, (h, [p]) ∈ (phase1 exts dec obs1 0 items { map := [], errors := [] }).map →
      p ∉ (searchModel exts dec dm fs obs1 obs2 items).loads ∧
      ∀ g ∈ (searchModel exts dec dm fs obs1 obs2 items).results.duplicates,
        ∀ img ∈ g, img.path ≠ p) := by
  have hwf := MapWF_phase1_init exts dec obs1 items
  refine ⟨fun q hq => searchModel_loads_mem exts dec dm fs obs1 obs2 items hq, ?_⟩
  intro h p hmem
  have hdecp : dec p = DecodeOutcome.ok h :=
    ((hwf.2 h [p] hmem).2 p (List.mem_singleton.mpr rfl)).2
  have huniq : ∀ h' ps',
      (h', ps') ∈ (phase1 exts dec obs1 0 items { map := [], errors := [] }).map →
      p ∈ ps' → ps' = [p] := by
    intro h' ps' hmem' hp'
    have hdecp' : dec p = DecodeOutcome.ok h' := ((hwf.2 h' ps' hmem').2 p hp').2
    have hh : h' = h := by
      have heq := hdecp.symm.trans hdecp'
      injection heq with heq'
      exact heq'.symm
    subst hh
    have e1 := bucket?_of_mem hwf.1 hmem
    have e2 := bucket?_of_mem hwf.1 hmem'
    rw [e1] at e2
    injection e2 with e3
    exact e3.symm
  constructor
  · intro hp
    obtain ⟨h', ps', hmem', hlen', hp'⟩ :=
      searchModel_loads_mem exts dec dm fs obs1 obs2 items hp
    rw [huniq h' ps' hmem' hp'] at hlen'
    simp at hlen'
  · intro g hg img himg
    obtain ⟨h', ps', hmem', hlen', rfl⟩ :=
      searchModel_dup_mem exts dec dm fs obs1 obs2 items hg
    obtain ⟨q, hq, hload⟩ := mem_materializeGroup.mp himg
    rw [loadOk_path hload]
    intro heq
    rw [heq] at hq
    rw [huniq h' ps' hmem' hq] at hlen'
    simp at hlen'

/-- C8 witness: in a concrete scan, the unique file `r/c.png` sits in a
single-path bucket, is never loaded, and appears in no group. -/
theorem c8_witness :
    "r/c.png" ∉ (searchModel exPng exDec exDm exFsOk noCancel noCancel exItems).loads ∧
    ∀ g ∈ (searchModel exPng exDec exDm exFsOk noCancel noCancel exItems).results.duplicates,
      ∀ img ∈ g, img.path ≠ "r/c.png" :=
  (c8_singleton_buckets exPng exDec exDm exFsOk noCancel noCancel exItems).2 7 "r/c.png"
    (by decide)

/-! Claim C9. -/

theorem pathSets_noCancel (exts : List String) (dec : String → DecodeOutcome)
    (dm : List Nat → Option (Nat × Nat)) (fs : String → LoadOutcome)
    (items : List WalkItem) :
    pathSets (searchModel exts dec dm fs noCancel noCancel items).results =
      (((items.foldl (processEntry exts dec) { map := [], errors := [] }).map.filter
        (fun b => 1 < b.2.length)).map
        (fun b => (b.2.filter (loadable dm fs)).toFinset)).toFinset := by
  rw [searchModel_noCancel_eq]
  unfold pathSets
  simp only [List.map_map]
  congr 1
  refine List.map_congr_left ?_
  intro b _
  simp only [Function.comp_apply]
  rw [map_path_materializeGroup]

theorem mem_pathSets_noCancel (exts : List String) (dec : String → DecodeOutcome)
    (dm : List Nat → Option (Nat × Nat)) (fs : String → LoadOutcome)
    (items : List WalkItem) (S : Finset String) :
    S ∈ pathSets (searchModel exts dec dm fs noCancel noCancel items).results ↔
      ∃ h ps,
        (h, ps) ∈ (items.foldl (processEntry exts dec) { map := [], errors := [] }).map ∧
        1 < ps.length ∧ S = (ps.filter (loadable dm fs)).toFinset := by
  rw [pathSets_noCancel]
  simp only [List.mem_toFinset, List.mem_map, List.mem_filter]
  constructor
  · rintro ⟨b, ⟨hb, hlen⟩, rfl⟩
    exact ⟨b.1, b.2, hb, by simpa using hlen, rfl⟩
  · rintro ⟨h, ps, hmem, hlen, rfl⟩
    exact ⟨(h, ps), ⟨hmem, by simpa using hlen⟩, rfl⟩

/-- C9: two completed (never-cancelled) scans over the same filesystem
environment whose walk items are permutations of each other — covering the
nondeterministic processing order of the parallel phase-1 workers and of the
bucket iteration — return duplicate groups with the same set of path
memberships, though group order and within-group order may differ. -/
theorem c9_idempotent_path_sets (exts : List String) (dec : String → DecodeOutcome)
    (dm : List Nat → Option (Nat × Nat)) (fs : String → LoadOutcome)
    (items1 items2 : List WalkItem) (hperm : items1.Perm items2) :
    pathSets (searchModel exts dec dm fs noCancel noCancel items1).results =
      pathSets (searchModel exts dec dm fs noCancel noCancel items2).results := by
  have key : ∀ (la lb : List WalkItem), la.Perm lb → ∀ S : Finset String,
      S ∈ pathSets (searchModel exts dec dm fs noCancel noCancel la).results →
      S ∈ pathSets (searchModel exts dec dm fs noCancel noCancel lb).results := by
    intro la lb hab S hS
    rw [mem_pathSets_noCancel] at hS ⊢
    obtain ⟨h, ps, hmem, hlen, rfl⟩ := hS
    have hwfa : MapWF exts dec
        (la.foldl (processEntry exts dec) { map := [], errors := [] }).map :=
      MapWF_foldl_processEntry la _ (MapWF_nil exts dec)
    have hwfb : MapWF exts dec
        (lb.foldl (processEntry exts dec) { map := [], errors := [] }).map :=
      MapWF_foldl_processEntry lb _ (MapWF_nil exts dec)
    have hbq : bucket? (la.foldl (processEntry exts dec)
        { map := [], errors := [] }).map h = some ps := bucket?_of_mem hwfa.1 hmem
    obtain ⟨q0, hq0⟩ : ∃ q0, q0 ∈ ps := by
      cases ps with
      | nil => simp at hlen
      | cons q qs => exact ⟨q, List.mem_cons_self _ _⟩
    have htrans : ∀ q, inBucket (la.foldl (processEntry exts dec)
        { map := [], errors := [] }).map h q →
        inBucket (lb.foldl (processEntry exts dec) { map := [], errors := [] }).map h q := by
      intro q hq
      rw [inBucket_phase1_iff] at hq ⊢
      obtain ⟨it, hit, hact⟩ := hq
      exact ⟨it, hab.subset hit, hact⟩
    obtain ⟨ps', hb', hq0'⟩ := htrans q0 ⟨ps, hbq, hq0⟩
    have hmem' : (h, ps') ∈ (lb.foldl (processEntry exts dec)
        { map := [], errors := [] }).map := mem_of_bucket? hb'
    have htrans' : ∀ q, inBucket (lb.foldl (processEntry exts dec)
        { map := [], errors := [] }).map h q →
        inBucket (la.foldl (processEntry exts dec) { map := [], errors := [] }).map h q := by
      intro q hq
      rw [inBucket_phase1_iff] at hq ⊢
      obtain ⟨it, hit, hact⟩ := hq
      exact ⟨it, hab.symm.subset hit, hact⟩
    have hiff : ∀ q, q ∈ ps ↔ q ∈ ps' := by
      intro q
      constructor
      · intro hq
        obtain ⟨ps'', hb'', hq''⟩ := htrans q ⟨ps, hbq, hq⟩
        rw [hb'] at hb''
        injection hb'' with e
        exact e ▸ hq''
      · intro hq
        obtain ⟨ps'', hb'', hq''⟩ := htrans' q ⟨ps', hb', hq⟩
        rw [hbq] at hb''
        injection hb'' with e
        exact e ▸ hq''
    have hfin : ps.toFinset = ps'.toFinset := by
      apply Finset.ext
      intro q
      simp only [List.mem_toFinset]
      exact hiff q
    have hlen' : 1 < ps'.length := by
      have hnda : ps.Nodup := (hwfa.2 h ps hmem).1
      have hndb : ps'.Nodup := (hwfb.2 h ps' hmem').1
      have : ps.length = ps'.length := by
        rw [← List.toFinset_card_of_nodup hnda, ← List.toFinset_card_of_nodup hndb, hfin]
      rw [← this]
      exact hlen
    refine ⟨h, ps', hmem', hlen', ?_⟩
    apply Finset.ext
    intro q
    simp only [List.mem_toFinset, List.mem_filter]
    constructor
    · rintro ⟨hq, hl⟩
      exact ⟨(hiff q).mp hq, hl⟩
    · rintro ⟨hq, hl⟩
      exact ⟨(hiff q).mpr hq, hl⟩
  exact Finset.ext fun S =>
    ⟨key items1 items2 hperm S, key items2 items1 hperm.symm S⟩

/-- C9 witness: the theorem applied to a concrete walk and its reversal. -/
theorem c9_witness :
    pathSets (searchModel exPng exDec exDm exFsOk noCancel noCancel exItems).results =
      pathSets (searchModel exPng exDec exDm exFsOk noCancel noCancel
        exItems.reverse).results :=
  c9_idempotent_path_sets exPng exDec exDm exFsOk exItems exItems.reverse
    (by decide)

end Deckard
